import Mathlib

/-!
Verification development for the point-cloud viewer repository
(`src/loader.py`, `src/renderer.py`, `src/cityscape_viewer.py`).

The Python code is shallowly embedded: float64 scalars are modelled by exact
rationals (`ℚ`), numpy arrays by Lean lists, and each Python function by a
computable Lean definition that mirrors its arithmetic step by step.  IEEE
special values (infinity, NaN), which arise only in the statistical outlier
filter, are modelled explicitly by the `EF` type further below.
-/

namespace LidarCV

/-- A 3D point: one row of the `(N, 3)` coordinate array
(`np.vstack([las.x, las.y, las.z]).T` in `loader.py`). -/
abbrev Pt : Type := ℚ × ℚ × ℚ

/-- An RGB color triple (components intended to be in `[0, 1]`). -/
abbrev Color : Type := ℚ × ℚ × ℚ

/-- The z (height) coordinate of a point. -/
def ptZ (p : Pt) : ℚ := p.2.2

/-- np.clip(x, lo, hi), which is np.minimum(hi, np.maximum(x, lo)). -/
def npClip (x lo hi : ℚ) : ℚ := min (max x lo) hi

/-- The module-level `CLASSIFICATION_COLORS` dict of `cityscape_viewer.py`
(ASPRS classification code to RGB), kept in source order. -/
def CLASSIFICATION_COLORS : List (ℤ × Color) :=
  [(0, (0.5, 0.5, 0.5)),
   (1, (0.3, 0.3, 0.3)),
   (2, (0.6, 0.4, 0.2)),
   (3, (0.2, 0.6, 0.2)),
   (4, (0.1, 0.7, 0.1)),
   (5, (0.0, 0.8, 0.0)),
   (6, (0.9, 0.1, 0.1)),
   (7, (0.9, 0.9, 0.0)),
   (9, (0.0, 0.5, 0.9)),
   (10, (0.5, 0.0, 0.9)),
   (11, (0.3, 0.3, 0.3)),
   (13, (0.8, 0.8, 0.2)),
   (14, (0.9, 0.5, 0.0)),
   (15, (0.7, 0.3, 0.0)),
   (17, (0.4, 0.4, 0.4)),
   (18, (0.0, 0.8, 0.8))]

/-- CLASSIFICATION_COLORS.get(cls, (0.5, 0.5, 0.5)): the per-point colorizer
used by `load_urban_las` (`cityscape_viewer.py` line 75). -/
def classificationColor (cls : ℤ) : Color :=
  (CLASSIFICATION_COLORS.lookup cls).getD (0.5, 0.5, 0.5)

/-- A color whose three components all lie in the unit interval. -/
def colorInUnit (c : Color) : Prop :=
  0 ≤ c.1 ∧ c.1 ≤ 1 ∧ 0 ≤ c.2.1 ∧ c.2.1 ≤ 1 ∧ 0 ≤ c.2.2 ∧ c.2.2 ≤ 1

/-- The orbit camera state of `renderer.py` (class `Camera`): spherical
coordinates around the target.  The Cartesian `position` of the source is a
derived trigonometric quantity (`update_position`, spherical-to-Cartesian via
cos/sin) recomputed after every mutation; no claim in this development depends
on it, so only the spherical state and the zoom distance are embedded.  The
`target` field is likewise only read by the trigonometric recompute. -/
structure Camera where
  azimuth : ℚ
  elevation : ℚ
  distance : ℚ
deriving DecidableEq

/-- self.rotation_speed = 0.5 in Camera.__init__. -/
def rotationSpeed : ℚ := 0.5

/-- self.zoom_speed = 2.0 in Camera.__init__. -/
def zoomSpeed : ℚ := 2.0

/-- Camera.__init__ defaults: position (0, 0, 50) and target (0, 0, 0), so
distance = 50; azimuth = 45 degrees; elevation = 30 degrees. -/
def Camera.init : Camera :=
  { azimuth := 45, elevation := 30, distance := 50 }

/-- Camera.rotate: azimuth += dAz * rotation_speed (no clamp);
elevation += dEl * rotation_speed, then np.clip(elevation, -89, 89). -/
def Camera.rotate (c : Camera) (dAz dEl : ℚ) : Camera :=
  { c with
    azimuth := c.azimuth + dAz * rotationSpeed,
    elevation := npClip (c.elevation + dEl * rotationSpeed) (-89) 89 }

/-- Camera.zoom: distance *= (1 - delta * zoom_speed * 0.1), then
distance = max(1.0, min(distance, 1000.0)). -/
def Camera.zoom (c : Camera) (delta : ℚ) : Camera :=
  { c with
    distance := max 1 (min (c.distance * (1 - delta * zoomSpeed * (0.1 : ℚ))) 1000) }

/-- The minimum of a list of rationals (np.min over a nonempty array; the
value for the empty list is an arbitrary total-function default — numpy
raises there and no claim touches that case). -/
def listMin : List ℚ → ℚ
  | [] => 0
  | h :: t => t.foldl min h

/-- The maximum of a list of rationals (np.max over a nonempty array). -/
def listMax : List ℚ → ℚ
  | [] => 0
  | h :: t => t.foldl max h

/-- The largest bounding-box extent of a point list:
np.max(points.max(axis=0) - points.min(axis=0)) in load_points. -/
def maxDim (points : List Pt) : ℚ :=
  max (listMax (points.map (fun p => p.1)) - listMin (points.map (fun p => p.1)))
    (max (listMax (points.map (fun p => p.2.1)) - listMin (points.map (fun p => p.2.1)))
      (listMax (points.map ptZ) - listMin (points.map ptZ)))

/-- The height normalization step of PointCloudRenderer.height_colormap:
(heights - h_min) / (h_max - h_min) when h_max > h_min, otherwise
np.zeros_like(heights). -/
def normalizeHeights (heights : List ℚ) : List ℚ :=
  let hMin := listMin heights
  let hMax := listMax heights
  if hMax > hMin then heights.map (fun h => (h - hMin) / (hMax - hMin))
  else heights.map (fun _ => 0)

/-- PointCloudRenderer.height_colormap: the viridis-like colormap applied to
normalized heights, each channel clipped into [0, 1]. -/
def heightColormap (heights : List ℚ) : List Color :=
  (normalizeHeights heights).map (fun n =>
    (npClip (1.5 * n - 0.5) 0 1,
     npClip (-2 * |n - 0.5| + 1) 0 1,
     npClip (1.5 * (1 - n) - 0.5) 0 1))

/-- GLFW mouse buttons as used by the callbacks of `renderer.py`. -/
inductive MouseButton where
  | left
  | right
  | middle
deriving DecidableEq

/-- The raw input events delivered to PointCloudRenderer's callbacks.  A press
carries the cursor position that glfw.get_cursor_pos reports at press time. -/
inductive InputEvent where
  | press (button : MouseButton) (cursorX cursorY : ℚ)
  | release (button : MouseButton)
  | move (x y : ℚ)
  | scroll (yoffset : ℚ)
deriving DecidableEq

/-- The renderer state of `renderer.py` (class `PointCloudRenderer`) relevant
to input handling and point loading: the camera, the mouse drag state, and the
loaded buffers.  `rotateCalls` and `panCalls` are ghost logs recording every
invocation of camera.rotate and camera.pan with its arguments, so that claims
about how often and with what arguments the controller drives the camera can
be stated. -/
structure ViewerState where
  camera : Camera
  mousePressed : Bool
  lastMouseX : ℚ
  lastMouseY : ℚ
  mouseButton : Option MouseButton
  points : Option (List Pt)
  colors : Option (List Color)
  rotateCalls : List (ℚ × ℚ)
  panCalls : List (ℚ × ℚ)
deriving DecidableEq

/-- PointCloudRenderer.__init__: mouse_pressed = False, last cursor (0, 0),
mouse_button = None, no buffers, a fresh default camera, empty ghost logs. -/
def ViewerState.init : ViewerState :=
  { camera := Camera.init, mousePressed := false, lastMouseX := 0, lastMouseY := 0,
    mouseButton := none, points := none, colors := none,
    rotateCalls := [], panCalls := [] }

/-- One input event processed by the callbacks of `renderer.py`:
mouse_button_callback (press/release), mouse_move_callback (move) and
scroll_callback (scroll).  On a move while pressed, the left button rotates by
(dx, -dy), the right button pans by (-dx, dy), and the captured cursor
position is updated; pan only mutates the camera target, which is not part of
the embedded camera state, so it is recorded in the ghost log only. -/
def ViewerState.step (s : ViewerState) : InputEvent → ViewerState
  | .press b x y =>
      { s with mousePressed := true, mouseButton := some b,
               lastMouseX := x, lastMouseY := y }
  | .release _ =>
      { s with mousePressed := false, mouseButton := none }
  | .move x y =>
      if s.mousePressed then
        let dx := x - s.lastMouseX
        let dy := y - s.lastMouseY
        let s2 :=
          match s.mouseButton with
          | some .left =>
              { s with camera := s.camera.rotate dx (-dy),
                       rotateCalls := s.rotateCalls ++ [(dx, -dy)] }
          | some .right =>
              { s with panCalls := s.panCalls ++ [(-dx, dy)] }
          | _ => s
        { s2 with lastMouseX := x, lastMouseY := y }
      else s
  | .scroll y =>
      { s with camera := s.camera.zoom (-y) }

/-- Process a sequence of input events in order. -/
def ViewerState.run (s : ViewerState) (events : List InputEvent) : ViewerState :=
  events.foldl ViewerState.step s

/-- PointCloudRenderer.load_points: store the points; when colors is None,
generate them from heights via height_colormap; center the camera target on
the cloud (a target-only update, not part of the embedded camera state) and
set camera.distance = max_dim * 1.5 with no clamp. -/
def ViewerState.loadPoints (s : ViewerState) (points : List Pt)
    (colors : Option (List Color)) : ViewerState :=
  { s with
    points := some points,
    colors := some (colors.getD (heightColormap (points.map ptZ))),
    camera := { s.camera with distance := maxDim points * 1.5 } }

/-- A voxel key: the integer triple floor(coordinate / voxel_size) per axis
(`loader.py` line 112).  The source casts the float64 floor with
astype(np.int32); that cast is exact whenever the key fits in 32 bits, and the
out-of-range case is undefined behavior of the C float-to-int conversion, so
the key is embedded as an unbounded integer triple. -/
abbrev VKey : Type := ℤ × ℤ × ℤ

/-- np.floor(p / voxel_size) per axis. -/
def voxelKey (v : ℚ) (p : Pt) : VKey :=
  (⌊p.1 / v⌋, ⌊p.2.1 / v⌋, ⌊ptZ p / v⌋)

/-- The lexicographic order on voxel keys: np.unique(..., axis=0) sorts the
distinct key rows lexicographically. -/
def keyLe (a b : VKey) : Prop :=
  a.1 < b.1 ∨ (a.1 = b.1 ∧ (a.2.1 < b.2.1 ∨ (a.2.1 = b.2.1 ∧ a.2.2 ≤ b.2.2)))

/-- Strict lexicographic order on voxel keys. -/
def keyLt (a b : VKey) : Prop := keyLe a b ∧ a ≠ b

instance : DecidableRel keyLe := fun a b => by
  unfold keyLe
  infer_instance

instance : IsTotal VKey keyLe := by
  constructor
  intro a b
  obtain ⟨a1, a2, a3⟩ := a
  obtain ⟨b1, b2, b3⟩ := b
  unfold keyLe
  simp only []
  omega

instance : IsTrans VKey keyLe := by
  constructor
  intro a b c hab hbc
  obtain ⟨a1, a2, a3⟩ := a
  obtain ⟨b1, b2, b3⟩ := b
  obtain ⟨c1, c2, c3⟩ := c
  unfold keyLe at hab hbc ⊢
  simp only [] at hab hbc ⊢
  omega

/-- keyLe is antisymmetric. -/
theorem keyLe_antisymm {a b : VKey} (hab : keyLe a b) (hba : keyLe b a) : a = b := by
  obtain ⟨a1, a2, a3⟩ := a
  obtain ⟨b1, b2, b3⟩ := b
  unfold keyLe at hab hba
  simp only [Prod.mk.injEq] at hab hba ⊢
  omega

/-- The first index at which key k occurs in the key list (the length when k
is absent): with return_index=True, np.unique reports the index of the first
occurrence of each distinct row. -/
def firstIdx (keys : List VKey) (k : VKey) : ℕ :=
  match keys with
  | [] => 0
  | k2 :: rest => if k2 = k then 0 else firstIdx rest k + 1

/-- The distinct voxel keys of a key list (each key once, order immaterial
because np.unique sorts them next). -/
def distinctKeys : List VKey → List VKey
  | [] => []
  | k :: rest => if k ∈ rest then distinctKeys rest else k :: distinctKeys rest

/-- The distinct voxel keys in lexicographically sorted order: the first
component of np.unique(voxel_indices, axis=0, return_index=True). -/
def uniqueSortedKeys (keys : List VKey) : List VKey :=
  List.insertionSort keyLe (distinctKeys keys)

/-- PointCloudLoader.voxel_downsample (`loader.py` lines 97-121): compute each
point's voxel key, take the distinct keys with np.unique(axis=0,
return_index=True) — which yields the distinct keys in sorted order, each
paired with the index of its first occurrence — and keep points[unique_indices]
(and colors[unique_indices] when colors is not None). -/
def voxel_downsample (points : List Pt) (colors : Option (List Color)) (v : ℚ) :
    List Pt × Option (List Color) :=
  let keys := points.map (voxelKey v)
  let idxs := (uniqueSortedKeys keys).map (firstIdx keys)
  (idxs.map (fun i => points.getD i (0, 0, 0)),
   colors.map (fun cs => idxs.map (fun i => cs.getD i (0, 0, 0))))

/-- The downsampling step of PointCloudLoader.load (`loader.py` lines 68-71):
`if self.downsample_voxel:` — Python truthiness, so the step runs whenever the
configured voxel size is neither None nor exactly 0 (negative sizes included),
and is skipped otherwise. -/
def loadDownsampleStep (downsampleVoxel : Option ℚ) (points : List Pt)
    (colors : Option (List Color)) : List Pt × Option (List Color) :=
  match downsampleVoxel with
  | none => (points, colors)
  | some v => if v = 0 then (points, colors) else voxel_downsample points colors v

/-- The relevant channels of a parsed LAS container as `cityscape_viewer.py`
sees them: the coordinate rows, the optional stored 16-bit RGB channels
(normalized to [0, 1] components when read by `loader.py`), and the optional
per-point classification codes.  An absent channel is the hasattr check
failing. -/
structure LasData where
  points : List Pt
  rgb : Option (List Color)
  classification : Option (List ℤ)
deriving DecidableEq

/-- The color-construction step of load_urban_las (`cityscape_viewer.py` lines
55-79): colors starts as None; when the container has a classification channel
the colors become CLASSIFICATION_COLORS.get(cls, gray) per point; the stored
RGB channel is never consulted by this function. -/
def loadUrbanColors (las : LasData) : Option (List Color) :=
  match las.classification with
  | some cls => some (cls.map classificationColor)
  | none => none

/-- load_urban_las up to and including its downsampling step: build the colors
from classification (never from the stored RGB channel), then voxel-downsample
points and colors jointly when downsample_voxel is truthy. -/
def loadUrban (las : LasData) (downsampleVoxel : Option ℚ) :
    List Pt × Option (List Color) :=
  loadDownsampleStep downsampleVoxel las.points (loadUrbanColors las)

/-- An IEEE-style extended value: a finite rational, +infinity, -infinity or
NaN.  scipy's cKDTree.query pads missing neighbors with infinite distances
when asked for more neighbors than there are points, and the arithmetic of
`remove_outliers` then propagates those values exactly as IEEE float64
does (inf - inf = NaN, every comparison with NaN false, no overflow for the
magnitudes involved), which this type reproduces. -/
inductive EF where
  | fin : ℚ → EF
  | pinf : EF
  | ninf : EF
  | nan : EF
deriving DecidableEq

/-- IEEE addition on extended values. -/
def efAdd : EF → EF → EF
  | .nan, _ => .nan
  | _, .nan => .nan
  | .pinf, .ninf => .nan
  | .ninf, .pinf => .nan
  | .pinf, _ => .pinf
  | _, .pinf => .pinf
  | .ninf, _ => .ninf
  | _, .ninf => .ninf
  | .fin a, .fin b => .fin (a + b)

/-- IEEE subtraction on extended values. -/
def efSub : EF → EF → EF
  | .nan, _ => .nan
  | _, .nan => .nan
  | .pinf, .pinf => .nan
  | .ninf, .ninf => .nan
  | .pinf, _ => .pinf
  | _, .pinf => .ninf
  | .ninf, _ => .ninf
  | _, .ninf => .pinf
  | .fin a, .fin b => .fin (a - b)

/-- IEEE multiplication on extended values (0 times an infinity is NaN). -/
def efMul : EF → EF → EF
  | .nan, _ => .nan
  | _, .nan => .nan
  | .fin a, .fin b => .fin (a * b)
  | .fin a, .pinf => if 0 < a then .pinf else if a < 0 then .ninf else .nan
  | .pinf, .fin a => if 0 < a then .pinf else if a < 0 then .ninf else .nan
  | .fin a, .ninf => if 0 < a then .ninf else if a < 0 then .pinf else .nan
  | .ninf, .fin a => if 0 < a then .ninf else if a < 0 then .pinf else .nan
  | .pinf, .pinf => .pinf
  | .ninf, .ninf => .pinf
  | .pinf, .ninf => .ninf
  | .ninf, .pinf => .ninf

/-- IEEE division of an extended value by a (nonnegative) count, as used for
the means in `remove_outliers`: division by zero sends a nonzero finite value
or an infinity to an infinity and 0/0 to NaN. -/
def efDivNat (x : EF) (n : ℕ) : EF :=
  match x with
  | .nan => .nan
  | .pinf => .pinf
  | .ninf => .ninf
  | .fin a =>
      if n = 0 then
        if 0 < a then .pinf else if a < 0 then .ninf else .nan
      else .fin (a / n)

/-- IEEE strict comparison: every comparison involving NaN is false. -/
def efLt : EF → EF → Bool
  | .nan, _ => false
  | _, .nan => false
  | .fin a, .fin b => decide (a < b)
  | .fin _, .pinf => true
  | .pinf, _ => false
  | .ninf, .ninf => false
  | .ninf, _ => true
  | _, .ninf => false

/-- IEEE square root on extended values.  The square root of a nonnegative
finite value is irrational in general, so the model takes the finite branch as
a parameter `fsqrt`; every theorem below holds for an arbitrary `fsqrt`, hence
in particular for the true square root, because the claims it settles are
decided entirely by the infinity/NaN propagation. -/
def efSqrt (fsqrt : ℚ → ℚ) : EF → EF
  | .nan => .nan
  | .pinf => .pinf
  | .ninf => .nan
  | .fin a => if a < 0 then .nan else .fin (fsqrt a)

/-- The mean of a list of extended values: numpy sum divided by the length. -/
def efMean (l : List EF) : EF :=
  efDivNat (l.foldl efAdd (.fin 0)) l.length

/-- numpy std: sqrt(mean((x - mean(l))^2)). -/
def efStd (fsqrt : ℚ → ℚ) (l : List EF) : EF :=
  let m := efMean l
  efSqrt fsqrt (efMean (l.map (fun x => efMul (efSub x m) (efSub x m))))

/-- The squared euclidean distance between two points. -/
def sqDist (p q : Pt) : ℚ :=
  (p.1 - q.1) ^ 2 + (p.2.1 - q.2.1) ^ 2 + (ptZ p - ptZ q) ^ 2

/-- One row of cKDTree(points).query(points, k = nb + 1) for the point p: the
nb + 1 smallest distances from p to the points of the tree in ascending order
(the first is the zero self-distance), padded with +infinity when the tree
holds fewer than nb + 1 points.  Neighbor selection is performed on squared
distances, which sqrt's monotonicity makes equivalent to the source's
selection on distances, and `efSqrt fsqrt` is then applied to each selected
entry. -/
def knnRow (fsqrt : ℚ → ℚ) (points : List Pt) (p : Pt) (nb : ℕ) : List EF :=
  let sorted := List.insertionSort (fun a b => a ≤ b) (points.map (sqDist p))
  let taken := sorted.take (nb + 1)
  taken.map (fun d => efSqrt fsqrt (.fin d)) ++
    List.replicate (nb + 1 - taken.length) .pinf

/-- Keep the entries of l whose mask entry is true (boolean-mask indexing). -/
def maskFilter {α : Type} (mask : List Bool) (l : List α) : List α :=
  (mask.zip l).filterMap (fun bx => if bx.1 then some bx.2 else none)

/-- PointCloudLoader.remove_outliers (`loader.py` lines 166-204): query the
nb + 1 nearest neighbors of every point, average each row excluding the first
column (the self-distance), form the global threshold mean + ratio * std of
those averages, and keep the points (and colors) whose average is strictly
below the threshold. -/
def remove_outliers (fsqrt : ℚ → ℚ) (points : List Pt)
    (colors : Option (List Color)) (nb : ℕ) (ratio : ℚ) :
    List Pt × Option (List Color) :=
  let meanDistances := points.map (fun p => efMean ((knnRow fsqrt points p nb).drop 1))
  let globalMean := efMean meanDistances
  let globalStd := efStd fsqrt meanDistances
  let threshold := efAdd globalMean (efMul (.fin ratio) globalStd)
  let mask := meanDistances.map (fun m => efLt m threshold)
  (maskFilter mask points, colors.map (maskFilter mask))

/-! Helper lemmas. -/

/-- A clipped value is at least the lower clip bound. -/
theorem npClip01_nonneg (x : ℚ) : 0 ≤ npClip x 0 1 :=
  le_min (le_max_right _ _) zero_le_one

/-- A clipped value is at most the upper clip bound. -/
theorem npClip01_le_one (x : ℚ) : npClip x 0 1 ≤ 1 :=
  min_le_right _ _

/-- Folding max over a constant list is the identity on the accumulator. -/
theorem foldl_max_eq_of_all_eq (t : List ℚ) (a : ℚ) (h : ∀ x ∈ t, x = a) :
    t.foldl max a = a := by
  induction t with
  | nil => rfl
  | cons x xs ih =>
      rw [List.forall_mem_cons] at h
      rw [List.foldl_cons, h.1, max_self]
      exact ih h.2

/-- Folding min over a constant list is the identity on the accumulator. -/
theorem foldl_min_eq_of_all_eq (t : List ℚ) (a : ℚ) (h : ∀ x ∈ t, x = a) :
    t.foldl min a = a := by
  induction t with
  | nil => rfl
  | cons x xs ih =>
      rw [List.forall_mem_cons] at h
      rw [List.foldl_cons, h.1, min_self]
      exact ih h.2

/-- The maximum of a nonempty constant list is that constant. -/
theorem listMax_eq_of_all_eq {l : List ℚ} {a : ℚ} (hne : l ≠ [])
    (h : ∀ x ∈ l, x = a) : listMax l = a := by
  cases l with
  | nil => exact absurd rfl hne
  | cons x xs =>
      rw [List.forall_mem_cons] at h
      rw [listMax, h.1]
      exact foldl_max_eq_of_all_eq xs a h.2

/-- The minimum of a nonempty constant list is that constant. -/
theorem listMin_eq_of_all_eq {l : List ℚ} {a : ℚ} (hne : l ≠ [])
    (h : ∀ x ∈ l, x = a) : listMin l = a := by
  cases l with
  | nil => exact absurd rfl hne
  | cons x xs =>
      rw [List.forall_mem_cons] at h
      rw [listMin, h.1]
      exact foldl_min_eq_of_all_eq xs a h.2

/-- Looking up a key that is not among the keys of an association list gives
none. -/
theorem lookup_eq_none_of_not_mem_keys {β : Type} (l : List (ℤ × β)) (a : ℤ)
    (h : a ∉ l.map Prod.fst) : List.lookup a l = none := by
  induction l with
  | nil => rfl
  | cons e t ih =>
      simp only [List.map_cons, List.mem_cons, not_or] at h
      obtain ⟨e1, e2⟩ := e
      rw [List.lookup_cons]
      have hb : (a == e1) = false := by
        simp only [beq_eq_false_iff_ne, ne_eq]
        exact h.1
      rw [hb]
      exact ih h.2

/-- Every color stored in the classification table has components in the unit
interval. -/
theorem classification_table_in_unit :
    ∀ e ∈ CLASSIFICATION_COLORS, colorInUnit e.2 := by
  intro e he
  fin_cases he <;> norm_num [colorInUnit]

/-- The colorizer agrees with the table on every tabled code. -/
theorem classificationColor_of_mem :
    ∀ e ∈ CLASSIFICATION_COLORS, classificationColor e.1 = e.2 := by
  intro e he
  fin_cases he <;> rfl

/-- A key that occurs in the list has its first index inside the list. -/
theorem firstIdx_lt_length {keys : List VKey} {k : VKey} (h : k ∈ keys) :
    firstIdx keys k < keys.length := by
  induction keys with
  | nil => cases h
  | cons k2 rest ih =>
      by_cases he : k2 = k
      · simp only [firstIdx, if_pos he, List.length_cons]
        exact Nat.succ_pos _
      · have hmem : k ∈ rest := by
          rcases List.mem_cons.mp h with h1 | h1
          · exact absurd h1.symm he
          · exact h1
        simp only [firstIdx, if_neg he, List.length_cons]
        exact Nat.succ_lt_succ (ih hmem)

/-- The entry at the first index of an occurring key is that key. -/
theorem getD_firstIdx {keys : List VKey} {k : VKey} (d : VKey) (h : k ∈ keys) :
    keys.getD (firstIdx keys k) d = k := by
  induction keys with
  | nil => cases h
  | cons k2 rest ih =>
      by_cases he : k2 = k
      · rw [firstIdx, if_pos he, List.getD_cons_zero]
        exact he
      · have hmem : k ∈ rest := by
          rcases List.mem_cons.mp h with h1 | h1
          · exact absurd h1.symm he
          · exact h1
        rw [firstIdx, if_neg he, List.getD_cons_succ]
        exact ih hmem

/-- No entry strictly before the first index of a key equals that key. -/
theorem firstIdx_minimal {keys : List VKey} {k : VKey} {j : ℕ} (d : VKey)
    (hj : j < firstIdx keys k) : keys.getD j d ≠ k := by
  induction keys generalizing j with
  | nil => exact absurd hj (Nat.not_lt_zero j)
  | cons k2 rest ih =>
      by_cases he : k2 = k
      · rw [firstIdx, if_pos he] at hj
        exact absurd hj (Nat.not_lt_zero j)
      · rw [firstIdx, if_neg he] at hj
        cases j with
        | zero =>
            rw [List.getD_cons_zero]
            exact he
        | succ n =>
            rw [List.getD_cons_succ]
            exact ih (Nat.lt_of_succ_lt_succ hj)

/-- In a duplicate-free key list, the first index of the j-th key is j. -/
theorem firstIdx_getElem_self {keys : List VKey} (hnd : keys.Nodup) {j : ℕ}
    (hj : j < keys.length) : firstIdx keys keys[j] = j := by
  induction keys generalizing j with
  | nil => exact absurd hj (Nat.not_lt_zero j)
  | cons k2 rest ih =>
      obtain ⟨hk2, hrest⟩ := List.nodup_cons.mp hnd
      cases j with
      | zero => simp [firstIdx]
      | succ n =>
          have hn : n < rest.length := Nat.lt_of_succ_lt_succ (by simpa using hj)
          have hget : (k2 :: rest)[n + 1] = rest[n] := List.getElem_cons_succ k2 rest n _
          have hne2 : ¬ (k2 = (k2 :: rest)[n + 1]) := by
            rw [hget]
            intro hcon
            exact hk2 (hcon ▸ List.getElem_mem hn)
          rw [firstIdx, if_neg hne2, hget, ih hrest hn]

/-- Membership in the distinct keys is membership in the key list. -/
theorem mem_distinctKeys {l : List VKey} {k : VKey} :
    k ∈ distinctKeys l ↔ k ∈ l := by
  induction l with
  | nil => simp [distinctKeys]
  | cons k2 rest ih =>
      by_cases h : k2 ∈ rest
      · simp only [distinctKeys, if_pos h, ih, List.mem_cons]
        constructor
        · intro hk
          exact Or.inr hk
        · rintro (rfl | hk)
          · exact h
          · exact hk
      · simp only [distinctKeys, if_neg h, List.mem_cons, ih]

/-- The distinct keys are duplicate-free. -/
theorem nodup_distinctKeys (l : List VKey) : (distinctKeys l).Nodup := by
  induction l with
  | nil => simp [distinctKeys]
  | cons k2 rest ih =>
      by_cases h : k2 ∈ rest
      · simpa only [distinctKeys, if_pos h] using ih
      · simp only [distinctKeys, if_neg h]
        exact List.nodup_cons.mpr ⟨fun hc => h (mem_distinctKeys.mp hc), ih⟩

/-- Extracting distinct keys from a duplicate-free list is the identity. -/
theorem distinctKeys_eq_self_of_nodup {l : List VKey} (h : l.Nodup) :
    distinctKeys l = l := by
  induction l with
  | nil => rfl
  | cons k rest ih =>
      obtain ⟨hk, hrest⟩ := List.nodup_cons.mp h
      simp only [distinctKeys, if_neg hk]
      rw [ih hrest]

/-- Membership in the sorted distinct keys is membership in the key list. -/
theorem mem_uniqueSortedKeys {keys : List VKey} {k : VKey} :
    k ∈ uniqueSortedKeys keys ↔ k ∈ keys := by
  rw [uniqueSortedKeys, List.mem_insertionSort, mem_distinctKeys]

/-- The sorted distinct keys are duplicate-free. -/
theorem nodup_uniqueSortedKeys (keys : List VKey) :
    (uniqueSortedKeys keys).Nodup :=
  (List.perm_insertionSort keyLe (distinctKeys keys)).symm.nodup (nodup_distinctKeys keys)

/-- The sorted distinct keys are sorted under the lexicographic order. -/
theorem sorted_uniqueSortedKeys (keys : List VKey) :
    (uniqueSortedKeys keys).Sorted keyLe :=
  List.sorted_insertionSort keyLe (distinctKeys keys)

/-- voxel_downsample written with its let bindings expanded. -/
theorem voxel_downsample_def (points : List Pt) (colors : Option (List Color)) (v : ℚ) :
    voxel_downsample points colors v =
      (((uniqueSortedKeys (points.map (voxelKey v))).map
          (firstIdx (points.map (voxelKey v)))).map
            (fun i => points.getD i (0, 0, 0)),
       colors.map (fun cs =>
         ((uniqueSortedKeys (points.map (voxelKey v))).map
            (firstIdx (points.map (voxelKey v)))).map
              (fun i => cs.getD i (0, 0, 0)))) := rfl

/-- The voxel key of the retained representative of key k is k itself. -/
theorem voxelKey_getD_firstIdx (points : List Pt) (v : ℚ) {k : VKey}
    (hk : k ∈ points.map (voxelKey v)) :
    voxelKey v (points.getD (firstIdx (points.map (voxelKey v)) k) (0, 0, 0)) = k := by
  have hlt : firstIdx (points.map (voxelKey v)) k < (points.map (voxelKey v)).length :=
    firstIdx_lt_length hk
  have hltp : firstIdx (points.map (voxelKey v)) k < points.length := by
    simpa using hlt
  rw [List.getD_eq_getElem points _ hltp]
  have := getD_firstIdx (voxelKey v (0, 0, 0)) hk
  rw [List.getD_eq_getElem _ _ hlt, List.getElem_map] at this
  exact this

/-- The voxel keys of the downsampled points are exactly the sorted distinct
voxel keys of the input. -/
theorem downsample_keys (points : List Pt) (colors : Option (List Color)) (v : ℚ) :
    (voxel_downsample points colors v).1.map (voxelKey v)
      = uniqueSortedKeys (points.map (voxelKey v)) := by
  rw [voxel_downsample_def]
  rw [List.map_map, List.map_map]
  have : ∀ k ∈ uniqueSortedKeys (points.map (voxelKey v)),
      ((voxelKey v ∘ fun i => points.getD i (0, 0, 0)) ∘
        firstIdx (points.map (voxelKey v))) k = id k := by
    intro k hkU
    exact voxelKey_getD_firstIdx points v (mem_uniqueSortedKeys.mp hkU)
  rw [List.map_congr_left this, List.map_id]

/-- Applying the first-index representative map of a duplicate-free key list
to an equally long value list is the identity. -/
theorem map_firstIdx_getD {α : Type} (U : List VKey) (hU : U.Nodup)
    (l : List α) (d : α) (hlen : l.length = U.length) :
    ((U.map (firstIdx U)).map (fun i => l.getD i d)) = l := by
  apply List.ext_getElem
  · simp [hlen]
  · intro n h1 h2
    rw [List.getElem_map, List.getElem_map]
    have hn : n < U.length := by simpa using h1
    rw [firstIdx_getElem_self hU hn]
    exact List.getD_eq_getElem l d h2

/-- An extended value that is a finite rational or +infinity (the only values
the padded neighbor distances can take). -/
def FinOrPinf (x : EF) : Prop := x = .pinf ∨ ∃ q, x = .fin q

/-- Adding +infinity on the left of a finite-or-infinite value gives
+infinity. -/
theorem efAdd_pinf_left {b : EF} (hb : FinOrPinf b) : efAdd .pinf b = .pinf := by
  rcases hb with rfl | ⟨q, rfl⟩ <;> rfl

/-- Adding +infinity on the right of a finite-or-infinite value gives
+infinity. -/
theorem efAdd_pinf_right {a : EF} (ha : FinOrPinf a) : efAdd a .pinf = .pinf := by
  rcases ha with rfl | ⟨q, rfl⟩ <;> rfl

/-- The sum of finite-or-infinite values is finite-or-infinite. -/
theorem efAdd_finOrPinf {a b : EF} (ha : FinOrPinf a) (hb : FinOrPinf b) :
    FinOrPinf (efAdd a b) := by
  rcases ha with rfl | ⟨q, rfl⟩ <;> rcases hb with rfl | ⟨r, rfl⟩
  · exact Or.inl rfl
  · exact Or.inl rfl
  · exact Or.inl rfl
  · exact Or.inr ⟨q + r, rfl⟩

/-- A fold of IEEE additions over finite-or-infinite values that sees at least
one +infinity (in the accumulator or the list) yields +infinity. -/
theorem foldl_efAdd_eq_pinf : ∀ (l : List EF) (acc : EF),
    (∀ x ∈ l, FinOrPinf x) → FinOrPinf acc → (acc = .pinf ∨ .pinf ∈ l) →
    l.foldl efAdd acc = .pinf := by
  intro l
  induction l with
  | nil =>
      intro acc h1 h2 h3
      rcases h3 with h3 | h3
      · exact h3
      · cases h3
  | cons x xs ih =>
      intro acc h1 h2 h3
      rw [List.foldl_cons]
      have hx : FinOrPinf x := h1 x (List.mem_cons_self x xs)
      refine ih (efAdd acc x) (fun y hy => h1 y (List.mem_cons_of_mem x hy))
        (efAdd_finOrPinf h2 hx) ?_
      rcases h3 with h3 | h3
      · left
        rw [h3]
        exact efAdd_pinf_left hx
      · rcases List.mem_cons.mp h3 with h4 | h4
        · left
          rw [← h4]
          exact efAdd_pinf_right h2
        · right
          exact h4

/-- The mean of finite-or-infinite values containing a +infinity is
+infinity. -/
theorem efMean_eq_pinf {l : List EF} (h1 : ∀ x ∈ l, FinOrPinf x)
    (h2 : EF.pinf ∈ l) : efMean l = .pinf := by
  rw [efMean, foldl_efAdd_eq_pinf l _ h1 (Or.inr ⟨0, rfl⟩) (Or.inr h2)]
  rfl

/-- Adding NaN on the right yields NaN. -/
theorem efAdd_nan_right (a : EF) : efAdd a .nan = .nan := by
  cases a <;> rfl

/-- Adding NaN on the left yields NaN. -/
theorem efAdd_nan_left (a : EF) : efAdd .nan a = .nan := by
  cases a <;> rfl

/-- Folding IEEE additions from a NaN accumulator stays NaN. -/
theorem foldl_efAdd_nan_acc (l : List EF) : l.foldl efAdd .nan = .nan := by
  induction l with
  | nil => rfl
  | cons x xs ih =>
      rw [List.foldl_cons, efAdd_nan_left]
      exact ih

/-- The mean of a nonempty all-NaN list is NaN. -/
theorem efMean_all_nan {l : List EF} (h : ∀ x ∈ l, x = .nan) (hne : l ≠ []) :
    efMean l = .nan := by
  cases l with
  | nil => exact absurd rfl hne
  | cons x xs =>
      rw [efMean, List.foldl_cons, h x (List.mem_cons_self x xs), efAdd_nan_right,
        foldl_efAdd_nan_acc]
      rfl

/-- Every IEEE comparison against NaN is false. -/
theorem efLt_nan_right (x : EF) : efLt x .nan = false := by
  cases x <;> rfl

/-- Boolean-mask filtering with an all-false mask yields the empty list. -/
theorem maskFilter_false {α : Type} (mask : List Bool) (l : List α)
    (h : ∀ b ∈ mask, b = false) : maskFilter mask l = [] := by
  induction mask generalizing l with
  | nil => rfl
  | cons b bs ih =>
      cases l with
      | nil => rfl
      | cons x xs =>
          simp only [maskFilter, List.zip_cons_cons, List.filterMap_cons,
            h b (List.mem_cons_self b bs)]
          exact ih xs (fun b2 hb2 => h b2 (List.mem_cons_of_mem b hb2))

/-- Squared euclidean distances are nonnegative. -/
theorem sqDist_nonneg (p q : Pt) : 0 ≤ sqDist p q := by
  unfold sqDist
  positivity

/-- Dropping the first entry of a nonempty mapped-and-padded distance row
leaves only finite values and at least one +infinity pad. -/
theorem mapped_padded_drop_spec (fsqrt : ℚ → ℚ) (S : List ℚ) (m : ℕ)
    (hSnn : ∀ d ∈ S, 0 ≤ d) (hSne : S ≠ []) (hm : m ≠ 0) :
    (∀ x ∈ ((S.map (fun d => efSqrt fsqrt (.fin d)))
        ++ List.replicate m EF.pinf).drop 1, FinOrPinf x) ∧
    EF.pinf ∈ ((S.map (fun d => efSqrt fsqrt (.fin d)))
        ++ List.replicate m EF.pinf).drop 1 := by
  have hSpos : 0 < S.length := List.length_pos.mpr hSne
  have h10 : 1 - (S.map (fun d => efSqrt fsqrt (.fin d))).length = 0 := by
    rw [List.length_map]
    omega
  rw [List.drop_append_eq_append_drop, h10, List.drop_zero]
  constructor
  · intro x hx
    rcases List.mem_append.mp hx with hx | hx
    · have hx2 := List.mem_of_mem_drop hx
      obtain ⟨d, hd, hxd⟩ := List.mem_map.mp hx2
      rw [← hxd]
      right
      refine ⟨fsqrt d, ?_⟩
      simp only [efSqrt]
      rw [if_neg (not_lt.mpr (hSnn d hd))]
    · left
      exact (List.mem_replicate.mp hx).2
  · exact List.mem_append.mpr (Or.inr (List.mem_replicate.mpr ⟨hm, rfl⟩))

/-- When the cloud holds at most nb points, every neighbor-distance row minus
its self-distance column consists of finite values with at least one
+infinity pad. -/
theorem knnRow_drop_spec (fsqrt : ℚ → ℚ) (points : List Pt) (p : Pt) (nb : ℕ)
    (hne : points ≠ []) (hN : points.length ≤ nb) :
    (∀ x ∈ (knnRow fsqrt points p nb).drop 1, FinOrPinf x) ∧
    EF.pinf ∈ (knnRow fsqrt points p nb).drop 1 := by
  have heq : knnRow fsqrt points p nb
      = (((List.insertionSort (fun a b => a ≤ b) (points.map (sqDist p))).take
            (nb + 1)).map (fun d => efSqrt fsqrt (.fin d)))
        ++ List.replicate
            (nb + 1 - ((List.insertionSort (fun a b => a ≤ b)
              (points.map (sqDist p))).take (nb + 1)).length) EF.pinf := rfl
  have hTlen : ((List.insertionSort (fun a b => a ≤ b)
      (points.map (sqDist p))).take (nb + 1)).length = points.length := by
    rw [List.length_take, List.length_insertionSort, List.length_map]
    exact min_eq_right (Nat.le_succ_of_le hN)
  have hNpos : 0 < points.length := List.length_pos.mpr hne
  rw [heq]
  refine mapped_padded_drop_spec fsqrt _ _ ?_ ?_ ?_
  · intro d hd
    have hd2 : d ∈ points.map (sqDist p) :=
      (List.mem_insertionSort (fun a b => a ≤ b)).mp (List.mem_of_mem_take hd)
    obtain ⟨q, _, hdq⟩ := List.mem_map.mp hd2
    rw [← hdq]
    exact sqDist_nonneg p q
  · intro hcon
    rw [← List.length_eq_zero] at hcon
    omega
  · omega

/-! Claim theorems. -/

/-- Claim C4: the classification colorizer is total and deterministic — every
integer code yields an RGB triple with components in [0, 1]; tabled codes
(code 6 among them) yield the table's color; every untabled code, 999
included, yields the neutral gray default. -/
theorem classification_colorizer_total :
    (∀ cls : ℤ, colorInUnit (classificationColor cls)) ∧
    (∀ e ∈ CLASSIFICATION_COLORS, classificationColor e.1 = e.2) ∧
    classificationColor 6 = (0.9, 0.1, 0.1) ∧
    classificationColor 999 = (0.5, 0.5, 0.5) ∧
    (∀ cls : ℤ, cls ∉ CLASSIFICATION_COLORS.map Prod.fst →
      classificationColor cls = (0.5, 0.5, 0.5)) := by
  have hgray : ∀ cls : ℤ, cls ∉ CLASSIFICATION_COLORS.map Prod.fst →
      classificationColor cls = (0.5, 0.5, 0.5) := by
    intro cls h
    unfold classificationColor
    rw [lookup_eq_none_of_not_mem_keys _ _ h]
    rfl
  refine ⟨?_, classificationColor_of_mem, rfl, rfl, hgray⟩
  intro cls
  by_cases h : cls ∈ CLASSIFICATION_COLORS.map Prod.fst
  · obtain ⟨e, he, hfst⟩ := List.mem_map.mp h
    rw [← hfst, classificationColor_of_mem e he]
    exact classification_table_in_unit e he
  · rw [hgray cls h]
    norm_num [colorInUnit]

/-- Claim C5, counterexample: a single rotate from the default camera lands
the elevation exactly on the clamp bound 89, so the elevation does not stay in
the open interval (-89, 89). -/
theorem rotate_elevation_hits_bound :
    (Camera.init.rotate 0 200).elevation = 89 ∧
    ¬ ((Camera.init.rotate 0 200).elevation < 89) := by
  constructor
  · norm_num [Camera.rotate, Camera.init, rotationSpeed, npClip]
  · norm_num [Camera.rotate, Camera.init, rotationSpeed, npClip]

/-- Claim C5, amended: after every rotate call the elevation lies in the
closed interval [-89, 89] (the np.clip bounds are attainable), and the azimuth
is never clamped: it is exactly the old azimuth plus dAz times the rotation
speed. -/
theorem rotate_elevation_clamped (c : Camera) (dAz dEl : ℚ) :
    -89 ≤ (c.rotate dAz dEl).elevation ∧ (c.rotate dAz dEl).elevation ≤ 89 ∧
    (c.rotate dAz dEl).azimuth = c.azimuth + dAz * rotationSpeed := by
  refine ⟨le_min (le_max_right _ _) (by norm_num), min_le_right _ _, rfl⟩

/-- Claim C5 witness: the amended clamp bound evaluated on a concrete rotate
call. -/
theorem rotate_elevation_clamped_witness :
    -89 ≤ (Camera.init.rotate 10 (-500)).elevation ∧
    (Camera.init.rotate 10 (-500)).elevation ≤ 89 ∧
    (Camera.init.rotate 10 (-500)).azimuth = Camera.init.azimuth + 10 * rotationSpeed :=
  rotate_elevation_clamped Camera.init 10 (-500)

/-- Claim C6, counterexample: load_points sets the camera distance to 1.5
times the largest bounding-box extent with no clamp, so a 1000-unit-wide cloud
drives the distance to 1500, outside [1, 1000]. -/
theorem load_points_distance_unclamped :
    (ViewerState.init.loadPoints [(0, 0, 0), (1000, 0, 0)] none).camera.distance = 1500 ∧
    ¬ ((ViewerState.init.loadPoints [(0, 0, 0), (1000, 0, 0)] none).camera.distance ≤ 1000) := by
  constructor
  · norm_num [ViewerState.loadPoints, ViewerState.init, maxDim, listMax, listMin, ptZ]
  · norm_num [ViewerState.loadPoints, ViewerState.init, maxDim, listMax, listMin, ptZ]

/-- Claim C6, amended: every zoom call leaves the distance inside the
configured [1, 1000] clamp, whatever the starting state and delta; loading a
point cloud, however, overwrites the distance with 1.5 times the largest
bounding-box extent without clamping, which can leave those bounds. -/
theorem zoom_distance_clamped (c : Camera) (delta : ℚ) :
    1 ≤ (c.zoom delta).distance ∧ (c.zoom delta).distance ≤ 1000 := by
  constructor
  · exact le_max_left _ _
  · exact max_le (by norm_num) (min_le_right _ _)

/-- Claim C6 witness: the zoom clamp evaluated on a concrete call. -/
theorem zoom_distance_clamped_witness :
    1 ≤ (Camera.init.zoom (-100)).distance ∧ (Camera.init.zoom (-100)).distance ≤ 1000 :=
  zoom_distance_clamped Camera.init (-100)

/-- Claim C9: pressing the left button at (100, 100), moving to (110, 90) and
releasing invokes camera.rotate exactly once, with arguments (10, 10) (the dy
sign inverted), and leaves the controller idle (not pressed, no captured
button). -/
theorem drag_rotate_once :
    (ViewerState.run .init
      [.press .left 100 100, .move 110 90, .release .left]).rotateCalls = [(10, 10)] ∧
    (ViewerState.run .init
      [.press .left 100 100, .move 110 90, .release .left]).mousePressed = false ∧
    (ViewerState.run .init
      [.press .left 100 100, .move 110 90, .release .left]).mouseButton = none := by
  norm_num [ViewerState.run, ViewerState.step, ViewerState.init, Camera.rotate,
    Camera.init, rotationSpeed, npClip]

/-- The normalization step keeps the array length. -/
theorem normalizeHeights_length (hs : List ℚ) :
    (normalizeHeights hs).length = hs.length := by
  by_cases h : listMax hs > listMin hs <;> simp [normalizeHeights, h]

/-- Claim C1: the code, not the claim, is at fault.  When 1 ≤ N ≤ nb_neighbors
the kNN query pads every neighbor row with infinite distances, every per-point
mean distance is +infinity, the global standard deviation and hence the
threshold are NaN, the comparison mask is all-false, and remove_outliers
removes every point — the opposite of the no-op skip the spec requires.  The
statement holds for every realization fsqrt of the finite square-root branch,
the true square root included. -/
theorem remove_outliers_removes_all (fsqrt : ℚ → ℚ) (points : List Pt)
    (colors : Option (List Color)) (nb : ℕ) (ratio : ℚ)
    (hne : points ≠ []) (hN : points.length ≤ nb) :
    remove_outliers fsqrt points colors nb ratio
      = ([], colors.map (fun _ => [])) := by
  have hrow : ∀ p ∈ points, efMean ((knnRow fsqrt points p nb).drop 1) = .pinf := by
    intro p _
    obtain ⟨ha, hb⟩ := knnRow_drop_spec fsqrt points p nb hne hN
    exact efMean_eq_pinf ha hb
  have hMD : ∀ x ∈ points.map (fun p => efMean ((knnRow fsqrt points p nb).drop 1)),
      x = .pinf := by
    intro x hx
    obtain ⟨p, hp, he⟩ := List.mem_map.mp hx
    rw [← he]
    exact hrow p hp
  obtain ⟨p0, hp0⟩ := List.exists_mem_of_ne_nil points hne
  have hpinfMem : EF.pinf ∈
      points.map (fun p => efMean ((knnRow fsqrt points p nb).drop 1)) := by
    rw [List.mem_map]
    exact ⟨p0, hp0, hrow p0 hp0⟩
  have hGM : efMean (points.map (fun p => efMean ((knnRow fsqrt points p nb).drop 1)))
      = .pinf := efMean_eq_pinf (fun x hx => Or.inl (hMD x hx)) hpinfMem
  have hStd : efStd fsqrt
      (points.map (fun p => efMean ((knnRow fsqrt points p nb).drop 1))) = .nan := by
    simp only [efStd]
    rw [hGM]
    have hnan : ∀ y ∈ (points.map (fun p => efMean ((knnRow fsqrt points p nb).drop 1))).map
        (fun x => efMul (efSub x EF.pinf) (efSub x EF.pinf)), y = .nan := by
      intro y hy
      obtain ⟨x, hx, he⟩ := List.mem_map.mp hy
      rw [← he, hMD x hx]
      rfl
    have hmapne : (points.map (fun p => efMean ((knnRow fsqrt points p nb).drop 1))).map
        (fun x => efMul (efSub x EF.pinf) (efSub x EF.pinf)) ≠ [] := by
      intro hcon
      rw [List.map_eq_nil_iff, List.map_eq_nil_iff] at hcon
      exact hne hcon
    rw [efMean_all_nan hnan hmapne]
    rfl
  simp only [remove_outliers]
  rw [hGM, hStd]
  have hthr : efAdd EF.pinf (efMul (EF.fin ratio) EF.nan) = EF.nan := rfl
  rw [hthr]
  have hmask : ∀ b ∈ (points.map
      (fun p => efMean ((knnRow fsqrt points p nb).drop 1))).map
        (fun m => efLt m EF.nan), b = false := by
    intro b hb
    obtain ⟨m, _, he⟩ := List.mem_map.mp hb
    rw [← he, efLt_nan_right]
  refine Prod.ext ?_ ?_
  · exact maskFilter_false _ _ hmask
  · cases colors with
    | none => rfl
    | some cs =>
        simp only [Option.map_some']
        rw [Option.some_inj]
        exact maskFilter_false _ _ hmask

/-- Claim C1 witness: the failing input — a single point with the default
nb_neighbors = 20 and std_ratio = 2.0 — on which remove_outliers returns the
empty buffer rather than leaving the point alone. -/
theorem remove_outliers_removes_all_witness :
    remove_outliers (fun q => q) [((0 : ℚ), 0, 0)] none 20 2 = ([], none) :=
  remove_outliers_removes_all (fun q => q) [((0 : ℚ), 0, 0)] none 20 2
    (by simp) (by norm_num)

/-- Claim C2, counterexample: two points in distinct voxels given in the order
(5,0,0), (0,0,0) — np.unique sorts the voxel keys, so the output is in
lexicographic key order, not in the order the voxels were first seen. -/
theorem voxel_output_not_first_seen_order :
    (voxel_downsample [((5 : ℚ), 0, 0), ((0 : ℚ), 0, 0)] none 1).1
      = [((0 : ℚ), 0, 0), ((5 : ℚ), 0, 0)] ∧
    [((0 : ℚ), 0, 0), ((5 : ℚ), 0, 0)] ≠ [((5 : ℚ), 0, 0), ((0 : ℚ), 0, 0)] := by
  constructor
  · norm_num [voxel_downsample, voxelKey, ptZ, uniqueSortedKeys,
      firstIdx, distinctKeys, List.insertionSort, List.orderedInsert, keyLe]
  · intro h
    rw [List.cons_eq_cons] at h
    have := h.1
    rw [Prod.mk.injEq] at this
    exact absurd this.1 (by norm_num)

/-- Claim C2, amended: voxel_downsample retains exactly one representative per
distinct voxel key — the first point of that voxel in original index order —
but the output is ordered by lexicographically sorted voxel key (the order
np.unique returns), not by the order the distinct voxels were first seen. -/
theorem voxel_downsample_first_per_voxel (points : List Pt)
    (colors : Option (List Color)) (v : ℚ) (hv : 0 < v) :
    ((voxel_downsample points colors v).1.map (voxelKey v)).Pairwise keyLt ∧
    (∀ k, k ∈ (voxel_downsample points colors v).1.map (voxelKey v) ↔
        k ∈ points.map (voxelKey v)) ∧
    (∀ q ∈ (voxel_downsample points colors v).1, ∃ i, i < points.length ∧
        points.getD i (0, 0, 0) = q ∧
        ∀ j, j < i → voxelKey v (points.getD j (0, 0, 0)) ≠ voxelKey v q) := by
  refine ⟨?_, ?_, ?_⟩
  · rw [downsample_keys]
    have h1 : (uniqueSortedKeys (points.map (voxelKey v))).Pairwise keyLe :=
      sorted_uniqueSortedKeys (points.map (voxelKey v))
    have h2 : (uniqueSortedKeys (points.map (voxelKey v))).Pairwise
        (fun a b => a ≠ b) := nodup_uniqueSortedKeys (points.map (voxelKey v))
    exact (h1.and h2).imp (fun h => h)
  · intro k
    rw [downsample_keys]
    exact mem_uniqueSortedKeys
  · intro q hq
    rw [voxel_downsample_def] at hq
    simp only [List.map_map, List.mem_map, Function.comp] at hq
    obtain ⟨k, hkU, hkq⟩ := hq
    have hk : k ∈ points.map (voxelKey v) := mem_uniqueSortedKeys.mp hkU
    have hlen : firstIdx (points.map (voxelKey v)) k < points.length := by
      simpa using firstIdx_lt_length hk
    refine ⟨firstIdx (points.map (voxelKey v)) k, hlen, hkq, ?_⟩
    intro j hj
    have hkey : voxelKey v q = k := by
      rw [← hkq]
      exact voxelKey_getD_firstIdx points v hk
    rw [hkey]
    have hjlen : j < points.length := lt_trans hj hlen
    have hjkeys : j < (points.map (voxelKey v)).length := by simpa using hjlen
    have hmin := firstIdx_minimal (voxelKey v (0, 0, 0)) hj
    rw [List.getD_eq_getElem _ _ hjkeys, List.getElem_map] at hmin
    rw [List.getD_eq_getElem _ _ hjlen]
    exact hmin

/-- Claim C2 witness: the amended statement evaluated on the two-point cloud
of the counterexample. -/
theorem voxel_downsample_first_per_voxel_witness :
    ((voxel_downsample [((5 : ℚ), 0, 0), ((0 : ℚ), 0, 0)] none 1).1.map
        (voxelKey 1)).Pairwise keyLt ∧
    (∀ k, k ∈ (voxel_downsample [((5 : ℚ), 0, 0), ((0 : ℚ), 0, 0)] none 1).1.map
        (voxelKey 1) ↔
        k ∈ ([((5 : ℚ), 0, 0), ((0 : ℚ), 0, 0)] : List Pt).map (voxelKey 1)) ∧
    (∀ q ∈ (voxel_downsample [((5 : ℚ), 0, 0), ((0 : ℚ), 0, 0)] none 1).1, ∃ i,
        i < ([((5 : ℚ), 0, 0), ((0 : ℚ), 0, 0)] : List Pt).length ∧
        ([((5 : ℚ), 0, 0), ((0 : ℚ), 0, 0)] : List Pt).getD i (0, 0, 0) = q ∧
        ∀ j, j < i →
          voxelKey 1 (([((5 : ℚ), 0, 0), ((0 : ℚ), 0, 0)] : List Pt).getD j (0, 0, 0))
            ≠ voxelKey 1 q) :=
  voxel_downsample_first_per_voxel [((5 : ℚ), 0, 0), ((0 : ℚ), 0, 0)] none 1 (by norm_num)

/-- Claim C3: voxel dedup is idempotent — downsampling an already-downsampled
buffer (points and colors jointly) with the same voxel size returns it
unchanged. -/
theorem voxel_downsample_idem (points : List Pt) (colors : Option (List Color))
    (v : ℚ) (hv : 0 < v) :
    voxel_downsample (voxel_downsample points colors v).1
        (voxel_downsample points colors v).2 v
      = voxel_downsample points colors v := by
  have hkeys2 := downsample_keys points colors v
  have hUnd := nodup_uniqueSortedKeys (points.map (voxelKey v))
  have hUsort := sorted_uniqueSortedKeys (points.map (voxelKey v))
  have hUS : uniqueSortedKeys ((voxel_downsample points colors v).1.map (voxelKey v))
      = uniqueSortedKeys (points.map (voxelKey v)) := by
    rw [hkeys2, uniqueSortedKeys, distinctKeys_eq_self_of_nodup hUnd,
      hUsort.insertionSort_eq]
  have hQlen : (voxel_downsample points colors v).1.length
      = (uniqueSortedKeys (points.map (voxelKey v))).length := by
    rw [voxel_downsample_def]
    simp
  conv_lhs => rw [voxel_downsample_def]
  rw [hUS, hkeys2]
  refine Prod.ext ?_ ?_
  · exact map_firstIdx_getD _ hUnd _ _ hQlen
  · show ((voxel_downsample points colors v).2.map fun cs =>
        ((uniqueSortedKeys (points.map (voxelKey v))).map
          (firstIdx (uniqueSortedKeys (points.map (voxelKey v))))).map
            (fun i => cs.getD i (0, 0, 0)))
      = (voxel_downsample points colors v).2
    cases colors with
    | none => rfl
    | some cs =>
        rw [voxel_downsample_def]
        simp only [Option.map_some']
        rw [Option.some_inj]
        refine map_firstIdx_getD _ hUnd _ _ ?_
        simp

/-- Claim C3 witness: idempotence evaluated on a concrete two-point cloud with
colors. -/
theorem voxel_downsample_idem_witness :
    voxel_downsample
        (voxel_downsample [((5 : ℚ), 0, 0), ((0 : ℚ), 0, 0)]
          (some [(0.2, 0.2, 0.2), (0.7, 0.7, 0.7)]) 1).1
        (voxel_downsample [((5 : ℚ), 0, 0), ((0 : ℚ), 0, 0)]
          (some [(0.2, 0.2, 0.2), (0.7, 0.7, 0.7)]) 1).2 1
      = voxel_downsample [((5 : ℚ), 0, 0), ((0 : ℚ), 0, 0)]
          (some [(0.2, 0.2, 0.2), (0.7, 0.7, 0.7)]) 1 :=
  voxel_downsample_idem [((5 : ℚ), 0, 0), ((0 : ℚ), 0, 0)]
    (some [(0.2, 0.2, 0.2), (0.7, 0.7, 0.7)]) 1 (by norm_num)

/-- Claim C7, counterexample: a negative voxel size is truthy in Python, so
the downsampling step runs rather than being skipped — two coincident points
are merged into one, which is not a no-op. -/
theorem load_negative_voxel_not_noop :
    loadDownsampleStep (some (-1)) [((0 : ℚ), 0, 0), ((0 : ℚ), 0, 0)] none
      = ([((0 : ℚ), 0, 0)], none) ∧
    (([((0 : ℚ), 0, 0)], none) : List Pt × Option (List Color))
      ≠ (([((0 : ℚ), 0, 0), ((0 : ℚ), 0, 0)], none) : List Pt × Option (List Color)) := by
  constructor
  · norm_num [loadDownsampleStep, voxel_downsample, voxelKey, ptZ, uniqueSortedKeys,
      firstIdx, distinctKeys, List.insertionSort, List.orderedInsert, keyLe]
  · intro h
    have := congrArg (fun r => r.1.length) h
    simp at this

/-- Claim C7, amended: the downsampling step of load is skipped exactly when
the configured voxel size is None or 0 (Python falsiness); those two cases are
no-ops, while a negative voxel size still downsamples. -/
theorem load_voxel_disabled_noop :
    (∀ points colors, loadDownsampleStep none points colors = (points, colors)) ∧
    (∀ points colors, loadDownsampleStep (some 0) points colors = (points, colors)) := by
  refine ⟨fun _ _ => rfl, fun p c => ?_⟩
  simp [loadDownsampleStep]

/-- Claim C10: the height colormap is total on every nonempty heights array —
load_points with colors = None always stores a defined color list of the same
length as the points, every component lies in [0, 1], and when all heights are
equal the guarded normalization yields all-zero normalized values rather than
dividing by zero. -/
theorem load_points_height_colors_total (s : ViewerState) (points : List Pt)
    (hne : points ≠ []) :
    (s.loadPoints points none).colors = some (heightColormap (points.map ptZ)) ∧
    (heightColormap (points.map ptZ)).length = points.length ∧
    (∀ c ∈ heightColormap (points.map ptZ), colorInUnit c) ∧
    ((∀ p ∈ points, ∀ q ∈ points, ptZ p = ptZ q) →
      normalizeHeights (points.map ptZ) = List.replicate points.length 0) := by
  refine ⟨rfl, ?_, ?_, ?_⟩
  · rw [heightColormap, List.length_map, normalizeHeights_length, List.length_map]
  · intro c hc
    rw [heightColormap, List.mem_map] at hc
    obtain ⟨n, _, hn⟩ := hc
    rw [← hn]
    exact ⟨npClip01_nonneg _, npClip01_le_one _, npClip01_nonneg _,
      npClip01_le_one _, npClip01_nonneg _, npClip01_le_one _⟩
  · intro hall
    obtain ⟨p0, hp0⟩ : ∃ p0, p0 ∈ points := by
      cases points with
      | nil => exact absurd rfl hne
      | cons x xs => exact ⟨x, List.mem_cons_self x xs⟩
    have hzs : ∀ z ∈ points.map ptZ, z = ptZ p0 := by
      intro z hz
      obtain ⟨q, hq, hzq⟩ := List.mem_map.mp hz
      rw [← hzq]
      exact hall q hq p0 hp0
    have hmapne : points.map ptZ ≠ [] := by
      intro hcon
      exact hne (List.map_eq_nil_iff.mp hcon)
    have hmax : listMax (points.map ptZ) = ptZ p0 := listMax_eq_of_all_eq hmapne hzs
    have hmin : listMin (points.map ptZ) = ptZ p0 := listMin_eq_of_all_eq hmapne hzs
    have hcond : ¬ (listMax (points.map ptZ) > listMin (points.map ptZ)) := by
      rw [hmax, hmin]
      exact lt_irrefl _
    simp only [normalizeHeights]
    rw [if_neg hcond, List.map_const', List.length_map]

/-- Claim C10 witness: the height-colormap totality evaluated on a concrete
two-point cloud of constant height. -/
theorem load_points_height_colors_total_witness :
    (ViewerState.init.loadPoints [(0, 0, 5), (1, 2, 5)] none).colors
        = some (heightColormap (([(0, 0, 5), (1, 2, 5)] : List Pt).map ptZ)) ∧
    (heightColormap (([(0, 0, 5), (1, 2, 5)] : List Pt).map ptZ)).length
        = ([(0, 0, 5), (1, 2, 5)] : List Pt).length ∧
    (∀ c ∈ heightColormap (([(0, 0, 5), (1, 2, 5)] : List Pt).map ptZ), colorInUnit c) ∧
    ((∀ p ∈ ([(0, 0, 5), (1, 2, 5)] : List Pt), ∀ q ∈ ([(0, 0, 5), (1, 2, 5)] : List Pt),
        ptZ p = ptZ q) →
      normalizeHeights (([(0, 0, 5), (1, 2, 5)] : List Pt).map ptZ)
        = List.replicate ([(0, 0, 5), (1, 2, 5)] : List Pt).length 0) :=
  load_points_height_colors_total ViewerState.init [(0, 0, 5), (1, 2, 5)] (by simp)

/-- Claim C8, counterexample: a container carrying both a stored RGB channel
and a classification channel — load_urban_las colors the point from the
classification table and the stored color is not kept. -/
theorem urban_colors_overwrite_stored :
    loadUrbanColors { points := [(0, 0, 0)], rgb := some [(1, 1, 1)],
                      classification := some [6] } = some [(0.9, 0.1, 0.1)] ∧
    some [((0.9 : ℚ), (0.1 : ℚ), (0.1 : ℚ))] ≠ some [((1 : ℚ), (1 : ℚ), (1 : ℚ))] := by
  constructor
  · rfl
  · intro h
    rw [Option.some_inj, List.cons_eq_cons] at h
    have := h.1
    rw [Prod.mk.injEq] at this
    exact absurd this.1 (by norm_num)

/-- Claim C8, amended: load_urban_las never reads the stored RGB channel — its
colors are a function of the classification channel alone: whenever
classification is present the colors are the classification-derived ones (for
any stored color channel, present or not), and when classification is absent
the colors are None. -/
theorem urban_colors_ignore_rgb :
    (∀ points rgb1 rgb2 cls,
      loadUrbanColors { points := points, rgb := rgb1, classification := cls }
        = loadUrbanColors { points := points, rgb := rgb2, classification := cls }) ∧
    (∀ points rgb cls,
      loadUrbanColors { points := points, rgb := rgb, classification := some cls }
        = some (cls.map classificationColor)) ∧
    (∀ points rgb,
      loadUrbanColors { points := points, rgb := rgb, classification := none } = none) :=
  ⟨fun _ _ _ cls => by cases cls <;> rfl, fun _ _ _ => rfl, fun _ _ => rfl⟩

end LidarCV
